import Mathlib

/-!
Verification of the OCR scoring, correction and caching core of the
handwriting-text-recognition project.

Texts are modelled as `List Char` (Python `str` values, restricted to the
ASCII repertoire the program's patterns and case mappings operate on).
Numeric results of the metric functions are modelled as rationals `ℚ`
(the exact values of the arithmetic the Python code performs).
Sources embedded here: `src/accuracy_metrics.py`, `src/smart_correction.py`
and the recognition cache of `src/text_recognizer.py`.
-/

namespace HTR

/-- ASCII uppercase letter test, the `[A-Z]` character class of the patterns. -/
def isUpperA (c : Char) : Bool := 'A' ≤ c && c ≤ 'Z'

/-- ASCII lowercase letter test, the `[a-z]` character class of the patterns. -/
def isLowerA (c : Char) : Bool := 'a' ≤ c && c ≤ 'z'

/-- ASCII letter test, the `[a-zA-Z]` character class of the patterns. -/
def isAlphaA (c : Char) : Bool := isUpperA c || isLowerA c

/-- ASCII digit test. -/
def isDigitA (c : Char) : Bool := '0' ≤ c && c ≤ '9'

/-- Word characters, the class `\w` underlying the `\b` anchors of the
patterns in `smart_correction.py` (ASCII range). -/
def isWordChar (c : Char) : Bool := isAlphaA c || isDigitA c || c = '_'

/-- ASCII whitespace: the characters Python's `\s`, `str.split()` and
`str.strip()` treat as whitespace in the ASCII range. -/
def isPySpace (c : Char) : Bool :=
  c = ' ' || c = '\t' || c = '\n' || c = '\r' || c = '\x0b' || c = '\x0c'

/-- Python `str.lower()` on the ASCII range (`Char.toLower` maps `A`-`Z`). -/
def pyLower (c : Char) : Char := c.toLower

/-- One-pass form of `re.sub(r"\s+", " ", text)`: `inRun` records whether the
previous character belonged to a whitespace run already replaced by the single
space. -/
def collapseGo : Bool → List Char → List Char
  | _, [] => []
  | inRun, c :: rest =>
      if isPySpace c then
        if inRun then collapseGo true rest else ' ' :: collapseGo true rest
      else c :: collapseGo false rest

/-- Replacement of every maximal whitespace run by a single space:
the `re.sub(r"\s+", " ", text)` step of `normalize_text`. -/
def collapseWs (l : List Char) : List Char := collapseGo false l

/-- Python `str.strip()`: drop leading and trailing whitespace. -/
def pyStrip (l : List Char) : List Char :=
  ((l.dropWhile isPySpace).reverse.dropWhile isPySpace).reverse

/-- Embedding of `normalize_text` from `accuracy_metrics.py`: lowercase,
collapse whitespace runs to single spaces, strip. -/
def normalize_text (text : List Char) : List Char :=
  pyStrip (collapseWs (text.map pyLower))

/-- One-pass worker for `str.split()`: `acc` holds the reversed characters of
the word currently being read. -/
def splitGo : List Char → List Char → List (List Char)
  | acc, [] => if acc = [] then [] else [acc.reverse]
  | acc, c :: rest =>
      if isPySpace c then
        if acc = [] then splitGo [] rest else acc.reverse :: splitGo [] rest
      else splitGo (c :: acc) rest

/-- Python `str.split()` with no argument: the whitespace-separated words,
with no empty words. -/
def pySplit (l : List Char) : List (List Char) := splitGo [] l

/-- Substitution cost `(c1 != c2)` of `calculate_levenshtein_distance`. -/
def subCost (c1 c2 : Char) : Nat := if c1 ≠ c2 then 1 else 0

/-- Inner loop of `calculate_levenshtein_distance`: for the outer-loop
character `c1`, walk the remaining characters of `s2` with the sliding window
`p0 :: p1 :: _` of `previous_row`; `left` is the entry of `current_row`
written just before (`current_row[j]`).  Produces the rest of `current_row`:
`min(insertions, deletions, substitutions)` at each position. -/
def buildRow (c1 : Char) : List Char → List Nat → Nat → List Nat
  | c2 :: cs, p0 :: p1 :: ps, left =>
      min (p1 + 1) (min (left + 1) (p0 + subCost c1 c2)) ::
        buildRow c1 cs (p1 :: ps) (min (p1 + 1) (min (left + 1) (p0 + subCost c1 c2)))
  | _, _, _ => []

/-- Outer loop of `calculate_levenshtein_distance`: `i` counts the characters
of `s1` already consumed, `prev` is `previous_row`; each step starts
`current_row` with `[i + 1]` and extends it with `buildRow`. -/
def levLoop (s2 : List Char) : List Char → Nat → List Nat → List Nat
  | [], _, prev => prev
  | c1 :: rest, i, prev => levLoop s2 rest (i + 1) ((i + 1) :: buildRow c1 s2 prev (i + 1))

/-- Body of `calculate_levenshtein_distance` after the argument swap: the
empty-`s2` early return, then the row dynamic program, answer
`previous_row[-1]`. -/
def levBody (s1 s2 : List Char) : Nat :=
  if s2.length = 0 then s1.length
  else (levLoop s2 s1 0 (List.range (s2.length + 1))).getLastD 0

/-- Embedding of `calculate_levenshtein_distance` from `accuracy_metrics.py`:
the shorter string is swapped into second position, then the rolling-row
dynamic program runs. -/
def calculate_levenshtein_distance (s1 s2 : List Char) : Nat :=
  if s1.length < s2.length then levBody s2 s1 else levBody s1 s2

/-- Reference recursive Levenshtein distance (head decomposition), used as
the specification the dynamic program is proved against. -/
def levc : List Char → List Char → Nat
  | [], b => b.length
  | _ :: xs, [] => xs.length + 1
  | x :: xs, y :: ys =>
      min (levc xs (y :: ys) + 1) (min (levc (x :: xs) ys + 1) (levc xs ys + subCost x y))

/-- Levenshtein distance decomposing at the last character: the form computed
by the prefix dynamic program. -/
def levd (a b : List Char) : Nat := levc a.reverse b.reverse

/-- Specification of a row of the dynamic program: the row for the consumed
prefix `a` of `s1` against the consumed prefix `b` of `s2`, with `r` the
remaining characters of `s2`. -/
def rowSpec (a : List Char) : List Char → List Char → List Nat
  | b, [] => [levd a b]
  | b, c :: cs => levd a b :: rowSpec a (b ++ [c]) cs

theorem levc_nil_left (b : List Char) : levc [] b = b.length := by
  simp [levc]

theorem levc_nil_right (a : List Char) : levc a [] = a.length := by
  cases a <;> simp [levc]

theorem levc_cons_cons (x y : Char) (xs ys : List Char) :
    levc (x :: xs) (y :: ys) =
      min (levc xs (y :: ys) + 1) (min (levc (x :: xs) ys + 1) (levc xs ys + subCost x y)) := by
  simp only [levc]

theorem subCost_self (c : Char) : subCost c c = 0 := by simp [subCost]

theorem subCost_comm (c d : Char) : subCost c d = subCost d c := by
  rcases eq_or_ne c d with h | h
  · rw [h]
  · simp [subCost, h, h.symm]

theorem levc_self (s : List Char) : levc s s = 0 := by
  induction s with
  | nil => simp [levc]
  | cons x xs ih => rw [levc_cons_cons, subCost_self, ih]; omega

theorem levc_comm (a : List Char) : ∀ b, levc a b = levc b a := by
  induction a with
  | nil => intro b; rw [levc_nil_left, levc_nil_right]
  | cons x xs ih =>
      intro b
      induction b with
      | nil => rw [levc_nil_left, levc_nil_right]
      | cons y ys ihy =>
          rw [levc_cons_cons, levc_cons_cons, ih (y :: ys), ih ys, ihy, subCost_comm]
          omega

theorem levc_eq_zero_iff (a : List Char) : ∀ b, levc a b = 0 ↔ a = b := by
  induction a with
  | nil => intro b; rw [levc_nil_left]; cases b <;> simp
  | cons x xs ih =>
      intro b
      cases b with
      | nil => rw [levc_nil_right]; simp
      | cons y ys =>
          rw [levc_cons_cons]
          constructor
          · intro h
            have h3 : levc xs ys + subCost x y = 0 := by omega
            have hxy : x = y := by
              by_contra hne
              simp [subCost, hne] at h3
            have hxs : xs = ys := (ih ys).mp (by omega)
            rw [hxy, hxs]
          · intro heq
            injection heq with h1 h2
            subst h1; subst h2
            rw [levc_self, subCost_self]
            omega

theorem levd_nil_right (a : List Char) : levd a [] = a.length := by
  simp [levd, levc_nil_right]

theorem levd_nil_left (b : List Char) : levd [] b = b.length := by
  simp [levd, levc_nil_left]

theorem levd_self (s : List Char) : levd s s = 0 := levc_self s.reverse

theorem levd_comm (a b : List Char) : levd a b = levd b a := levc_comm a.reverse b.reverse

theorem levd_eq_zero_iff (a b : List Char) : levd a b = 0 ↔ a = b := by
  rw [levd, levc_eq_zero_iff a.reverse b.reverse]
  exact List.reverse_inj

theorem levd_snoc (a b : List Char) (c1 c2 : Char) :
    levd (a ++ [c1]) (b ++ [c2]) =
      min (levd a (b ++ [c2]) + 1)
        (min (levd (a ++ [c1]) b + 1) (levd a b + subCost c1 c2)) := by
  simp only [levd, List.reverse_append, List.reverse_cons, List.reverse_nil, List.nil_append,
    List.singleton_append]
  rw [levc_cons_cons]

theorem rowSpec_eq_cons (a b r : List Char) :
    rowSpec a b r = levd a b :: (rowSpec a b r).tail := by
  cases r <;> rfl

theorem rowSpec_ne_nil (a b r : List Char) : rowSpec a b r ≠ [] := by
  cases r <;> simp [rowSpec]

theorem buildRow_spec (c1 : Char) (a : List Char) :
    ∀ (r b : List Char),
      buildRow c1 r (rowSpec a b r) (levd (a ++ [c1]) b) = (rowSpec (a ++ [c1]) b r).tail := by
  intro r
  induction r with
  | nil => intro b; rfl
  | cons c2 cs ih =>
      intro b
      conv_lhs => rw [rowSpec, rowSpec_eq_cons a (b ++ [c2]) cs]
      simp only [buildRow]
      rw [← levd_snoc a b c1 c2, ← rowSpec_eq_cons a (b ++ [c2]) cs, ih (b ++ [c2])]
      conv_rhs => rw [rowSpec]
      rw [List.tail_cons]
      exact (rowSpec_eq_cons (a ++ [c1]) (b ++ [c2]) cs).symm

theorem levLoop_spec (s2 : List Char) :
    ∀ (rest a : List Char) (i : Nat), i = a.length →
      levLoop s2 rest i (rowSpec a [] s2) = rowSpec (a ++ rest) [] s2 := by
  intro rest
  induction rest with
  | nil => intro a i hi; simp [levLoop]
  | cons c1 rest ih =>
      intro a i hi
      simp only [levLoop]
      have h1 : i + 1 = levd (a ++ [c1]) [] := by
        rw [levd_nil_right, List.length_append, hi]; rfl
      rw [h1, buildRow_spec c1 a s2 [], ← rowSpec_eq_cons (a ++ [c1]) [] s2]
      have h2 : levd (a ++ [c1]) [] = (a ++ [c1]).length := levd_nil_right _
      rw [h2, ih (a ++ [c1]) _ rfl, ← List.append_cons]

theorem rowSpec_on_nil (r : List Char) :
    ∀ b : List Char, rowSpec [] b r = List.range' b.length (r.length + 1) := by
  induction r with
  | nil => intro b; simp [rowSpec, levd_nil_left]
  | cons c cs ih =>
      intro b
      rw [rowSpec, List.range'_succ, ih (b ++ [c])]
      simp [levd_nil_left]

theorem getLastD_cons_of_ne_nil {x d : Nat} {l : List Nat} (h : l ≠ []) :
    (x :: l).getLastD d = l.getLastD d := by
  cases l with
  | nil => exact absurd rfl h
  | cons y ys => simp [List.getLastD_cons]

theorem rowSpec_getLastD (a : List Char) :
    ∀ (r b : List Char), (rowSpec a b r).getLastD 0 = levd a (b ++ r) := by
  intro r
  induction r with
  | nil => intro b; simp [rowSpec]
  | cons c cs ih =>
      intro b
      rw [rowSpec, getLastD_cons_of_ne_nil (rowSpec_ne_nil a (b ++ [c]) cs), ih (b ++ [c])]
      simp

theorem levBody_eq (s1 s2 : List Char) : levBody s1 s2 = levd s1 s2 := by
  rw [levBody]
  by_cases h : s2.length = 0
  · rw [if_pos h]
    rw [List.length_eq_zero.mp h, levd_nil_right]
  · rw [if_neg h]
    have h0 : List.range (s2.length + 1) = rowSpec [] [] s2 := by
      rw [rowSpec_on_nil s2 [], List.range_eq_range']
      simp
    rw [h0, levLoop_spec s2 s1 [] 0 rfl, List.nil_append, rowSpec_getLastD s1 s2 [],
      List.nil_append]

theorem calc_lev_eq (s1 s2 : List Char) : calculate_levenshtein_distance s1 s2 = levd s1 s2 := by
  rw [calculate_levenshtein_distance]
  by_cases h : s1.length < s2.length
  · rw [if_pos h, levBody_eq, levd_comm]
  · rw [if_neg h, levBody_eq]

/-- Embedding of `calculate_cer` from `accuracy_metrics.py`, over exact
rationals: the empty-reference branches, then
`min(distance / len(ground_truth), 1.0)`. -/
def calculate_cer (ground_truth predicted : List Char) : ℚ :=
  if ground_truth = [] then (if predicted = [] then 0 else 1)
  else
    min ((calculate_levenshtein_distance ground_truth predicted : ℚ) / ground_truth.length) 1

/-- Inner loop of the word-level dynamic program of `calculate_wer`: the
window `d0 :: d1 :: _` slides over the previous row, `left` is `dp[i][j-1]`;
each cell is `dp[i-1][j-1]` on equal words and otherwise
`1 + min(dp[i-1][j], dp[i][j-1], dp[i-1][j-1])`. -/
def werRow (w : List Char) : List (List Char) → List Nat → Nat → List Nat
  | p :: ps, d0 :: d1 :: ds, left =>
      (if w = p then d0 else 1 + min d1 (min left d0)) ::
        werRow w ps (d1 :: ds) (if w = p then d0 else 1 + min d1 (min left d0))
  | _, _, _ => []

/-- Outer loop of the word-level dynamic program of `calculate_wer`. -/
def werLoop (pred_words : List (List Char)) : List (List Char) → Nat → List Nat → List Nat
  | [], _, prev => prev
  | w :: gs, i, prev => werLoop pred_words gs (i + 1) ((i + 1) :: werRow w pred_words prev (i + 1))

/-- The word-level edit-distance value `dp[m][n]` computed by
`calculate_wer`. -/
def wordDP (gt_words pred_words : List (List Char)) : Nat :=
  (werLoop pred_words gt_words 0 (List.range (pred_words.length + 1))).getLastD 0

/-- Embedding of `calculate_wer`: Word Error Rate from the word-level dynamic
program over normalized whitespace-split words.  (The character-level distance
the Python code also computes is dead code, overwritten before use, and is not
modelled.) -/
def calculate_wer (ground_truth predicted : List Char) : ℚ :=
  if pySplit (normalize_text ground_truth) = [] then
    (if pySplit (normalize_text predicted) = [] then 0 else 1)
  else
    min ((wordDP (pySplit (normalize_text ground_truth))
        (pySplit (normalize_text predicted)) : ℚ) /
      (pySplit (normalize_text ground_truth)).length) 1

/-- Embedding of `calculate_accuracy`: percentage of correct characters. -/
def calculate_accuracy (ground_truth predicted : List Char) : ℚ :=
  if ground_truth = [] then (if predicted = [] then 100 else 0)
  else max 0 ((1 - calculate_cer ground_truth predicted) * 100)

/-- Embedding of `calculate_word_accuracy`: positional comparison of the
normalized word lists via `zip`, divided by the reference word count. -/
def calculate_word_accuracy (ground_truth predicted : List Char) : ℚ :=
  if pySplit (normalize_text ground_truth) = [] then
    (if pySplit (normalize_text predicted) = [] then 100 else 0)
  else
    (((List.zip (pySplit (normalize_text ground_truth))
          (pySplit (normalize_text predicted))).countP
        (fun wp => decide (wp.1 = wp.2)) : ℚ) /
      (pySplit (normalize_text ground_truth)).length) * 100

/-- Python `round(x, 2)` over `ℚ`: round `100 x` to an integer and scale
back.  Mathlib `round` rounds half up; the spec accepts either half-rounding
convention and no claim below depends on a tie. -/
def roundTo2 (q : ℚ) : ℚ := (round (q * 100) : ℚ) / 100

/-- The dictionary returned by `get_detailed_metrics`. -/
structure Metrics where
  character_error_rate : ℚ
  word_error_rate : ℚ
  character_accuracy : ℚ
  word_accuracy : ℚ
  levenshtein_distance : Nat
  ground_truth_length : Nat
  predicted_length : Nat
  ground_truth_word_count : Nat
  predicted_word_count : Nat
deriving DecidableEq

/-- Embedding of `get_detailed_metrics`: all metrics, with the percentages
rounded to two decimals and the raw distance unrounded; the word counts come
from splitting the raw (unnormalized) texts. -/
def get_detailed_metrics (ground_truth predicted : List Char) : Metrics where
  character_error_rate := roundTo2 (calculate_cer ground_truth predicted * 100)
  word_error_rate := roundTo2 (calculate_wer ground_truth predicted * 100)
  character_accuracy := roundTo2 (calculate_accuracy ground_truth predicted)
  word_accuracy := roundTo2 (calculate_word_accuracy ground_truth predicted)
  levenshtein_distance := calculate_levenshtein_distance ground_truth predicted
  ground_truth_length := ground_truth.length
  predicted_length := predicted.length
  ground_truth_word_count := (pySplit ground_truth).length
  predicted_word_count := (pySplit predicted).length

/-- An engine-result dictionary as consumed by `compare_engines`; `Option`
fields model dictionary keys that may be absent. -/
structure EngineResult where
  engine : String
  text : Option (List Char)
  success : Option Bool
  error : Option String
  accuracy_metrics : Option Metrics
deriving DecidableEq

/-- Loop body of `compare_engines`: when
`result.get("success", True) and "text" in result` holds, a copy of the
result with fresh metrics attached is emitted; otherwise the result passes
through untouched. -/
def compareStep (ground_truth : List Char) (r : EngineResult) : EngineResult :=
  match r.text with
  | some t =>
      if r.success.getD true then
        { r with accuracy_metrics := some (get_detailed_metrics ground_truth t) }
      else r
  | none => r

/-- The sort key of `compare_engines`:
`x.get("accuracy_metrics", \x7b\x7d).get("character_accuracy", 0)`. -/
def sortKey (r : EngineResult) : ℚ :=
  (r.accuracy_metrics.map Metrics.character_accuracy).getD 0

instance sortRelDecidable :
    DecidableRel (fun a b : EngineResult => sortKey b ≤ sortKey a) :=
  fun a b => inferInstanceAs (Decidable (sortKey b ≤ sortKey a))

/-- Embedding of `compare_engines`: metrics attachment, then the stable
descending sort on `character_accuracy`.  Python `list.sort(key, reverse=True)`
is the stable sort by descending key; insertion sort with the relation
`sortKey b ≤ sortKey a` computes exactly that list (an element is inserted
behind every earlier element of strictly greater or equal key), which the
stability theorem below makes precise. -/
def compare_engines (ground_truth : List Char) (engine_results : List EngineResult) :
    List EngineResult :=
  List.insertionSort (fun a b => sortKey b ≤ sortKey a)
    (engine_results.map (compareStep ground_truth))

/-- The `\b` anchor of a pattern position adjacent to a word character:
holds at the ends of the text or next to a non-word character.  The argument
is the adjacent original character, `none` at the ends of the text. -/
def boundaryOk : Option Char → Bool
  | some d => !isWordChar d
  | none => true

/-- Lookbehind `(?<=[A-Z])` on the original preceding character. -/
def preUpper : Option Char → Bool
  | some p => isUpperA p
  | none => false

/-- Lookahead `(?=[A-Z])` on the original following character. -/
def postUpper : Option Char → Bool
  | some d => isUpperA d
  | none => false

/-- Absence of a lookaround condition. -/
def noCond : Option Char → Bool := fun _ => true

/-- Worker for the `PATTERN_RM` stage (`\b([A-Z])rm([a-zA-Z]+)\b` of
`smart_correction.py`): scans left to right over the original characters,
replacing every non-overlapping match by `group(1) + "M" + group(2).upper()`
and recording the `(whole match, replacement)` pairs in match order.  `prev`
is the original character before the current position.  The fuel argument,
kept at least the length of the remaining text, only makes the recursion
structural; fuel never runs out on the initial value. -/
def rmScanGo : Nat → Option Char → List Char → List Char × List (List Char × List Char)
  | 0, _, l => (l, [])
  | _ + 1, _, [] => ([], [])
  | fuel + 1, prev, c :: rest =>
      match rest, boundaryOk prev && isUpperA c with
      | 'r' :: 'm' :: rest2, true =>
          if rest2.takeWhile isAlphaA ≠ [] && boundaryOk (rest2.dropWhile isAlphaA).head? then
            let g2 := rest2.takeWhile isAlphaA
            let fixed := c :: 'M' :: g2.map Char.toUpper
            let next := rmScanGo fuel (some (g2.getLastD 'm')) (rest2.dropWhile isAlphaA)
            (fixed ++ next.1, (c :: 'r' :: 'm' :: g2, fixed) :: next.2)
          else
            let next := rmScanGo fuel (some c) rest
            (c :: next.1, next.2)
      | _, _ =>
          let next := rmScanGo fuel (some c) rest
          (c :: next.1, next.2)

/-- The f-string `f"\x27{original_word}\x27 → \x27{fixed_word}\x27"` recorded
for each `PATTERN_RM` match. -/
def mkRmCorrection (w : List Char × List Char) : String :=
  String.mk ('\x27' :: w.1 ++ '\x27' :: ' ' :: '→' :: ' ' :: '\x27' :: w.2 ++ ['\x27'])

/-- Stage 1 of `correct_common_mistakes` (the `PATTERN_RM` block): the
rewritten text and the per-match correction entries; Python walks
`reversed(matches)`, so the entries appear in right-to-left match order. -/
def rmStage (t : List Char) : List Char × List String :=
  ((rmScanGo t.length none t).1, (((rmScanGo t.length none t).2).map mkRmCorrection).reverse)

/-- Generic `re.sub` scan for a two-character literal pattern with lookaround
conditions `pre` (on the original preceding character) and `post` (on the
original following character): left-to-right, non-overlapping. -/
def subLit2 (a b : Char) (pre post : Option Char → Bool) (repl : Char) :
    Option Char → List Char → List Char
  | prev, c1 :: c2 :: rest =>
      if c1 = a && c2 = b && pre prev && post rest.head? then
        repl :: subLit2 a b pre post repl (some b) rest
      else
        c1 :: subLit2 a b pre post repl (some c1) (c2 :: rest)
  | _, l => l

/-- Generic `re.sub` scan for a one-character literal pattern with lookaround
conditions, as in `subLit2`. -/
def subLit1 (a : Char) (pre post : Option Char → Bool) (repl : Char) :
    Option Char → List Char → List Char
  | _, [] => []
  | prev, c :: rest =>
      if c = a && pre prev && post rest.head? then
        repl :: subLit1 a pre post repl (some c) rest
      else
        c :: subLit1 a pre post repl (some c) rest

/-- Stages 2-9 of `correct_common_mistakes`: the eight unconditional `re.sub`
calls, innermost first in source order — `PATTERN_RM_UPPER` `rm(?=[A-Z])`,
`PATTERN_RM_AFTER` `(?<=[A-Z])rm`, `PATTERN_RM_STANDALONE` `\brm\b`,
`PATTERN_RN_STANDALONE` `\bRn\b`, `PATTERN_RN_BETWEEN` `(?<=[A-Z])rn(?=[A-Z])`,
`PATTERN_RN_END` `(?<=[A-Z])rn\b`, `PATTERN_NN_BETWEEN` `(?<=[A-Z])nn(?=[A-Z])`
(all replaced by `M`) and `PATTERN_NN_STANDALONE` `\bnn\b` (replaced by
`m`). -/
def rmRnNnStages (t : List Char) : List Char :=
  subLit2 'n' 'n' boundaryOk boundaryOk 'm' none
    (subLit2 'n' 'n' preUpper postUpper 'M' none
      (subLit2 'r' 'n' preUpper boundaryOk 'M' none
        (subLit2 'r' 'n' preUpper postUpper 'M' none
          (subLit2 'R' 'n' boundaryOk boundaryOk 'M' none
            (subLit2 'r' 'm' boundaryOk boundaryOk 'M' none
              (subLit2 'r' 'm' preUpper noCond 'M' none
                (subLit2 'r' 'm' noCond postUpper 'M' none t)))))))

/-- Worker for the `PATTERN_SHORT_WORDS` stage
(`\b([A-Z]{1,3})([a-z]{1,3})\b` substituted through
`uppercase_short_words`): a match is a maximal uppercase run of length 1-3
followed by a maximal lowercase run of length 1-3 ending at a word boundary;
matched words of total length 2-5 are upper-cased and a 3+3 match is returned
unchanged (but still consumed).  Fuel as in `rmScanGo`. -/
def shortWordGo : Nat → Option Char → List Char → List Char
  | 0, _, l => l
  | _ + 1, _, [] => []
  | fuel + 1, prev, c :: rest =>
      if boundaryOk prev && isUpperA c then
        if ((c :: rest).takeWhile isUpperA).length ≤ 3 &&
            (((c :: rest).dropWhile isUpperA).takeWhile isLowerA).length ≠ 0 &&
            (((c :: rest).dropWhile isUpperA).takeWhile isLowerA).length ≤ 3 &&
            boundaryOk (((c :: rest).dropWhile isUpperA).dropWhile isLowerA).head? then
          let ups := (c :: rest).takeWhile isUpperA
          let lows := ((c :: rest).dropWhile isUpperA).takeWhile isLowerA
          let word := ups ++ lows
          (if 2 ≤ word.length && word.length ≤ 5 then word.map Char.toUpper else word) ++
            shortWordGo fuel (some (lows.getLastD c))
              (((c :: rest).dropWhile isUpperA).dropWhile isLowerA)
        else
          c :: shortWordGo fuel (some c) rest
      else
        c :: shortWordGo fuel (some c) rest

/-- Stage 10 of `correct_common_mistakes` (`PATTERN_SHORT_WORDS`). -/
def shortWordStage (t : List Char) : List Char := shortWordGo t.length none t

/-- The entry recorded when the short-word stage changes the text. -/
def shortWordsMsg : String := "Fixed capitalization in short words"

/-- The entry recorded for each `CHAR_REPLACEMENTS` rule that changes the
text. -/
def confusionMsg : String := "Fixed character confusion"

/-- The `CHAR_REPLACEMENTS` table of `smart_correction.py`: each entry is the
`re.sub` scan of one (pattern, replacement) pair, in source order. -/
def charReplacements : List (List Char → List Char) :=
  [ subLit1 '0' boundaryOk postUpper 'O' none,
    subLit1 '0' preUpper postUpper 'O' none,
    subLit1 '0' preUpper boundaryOk 'O' none,
    subLit1 '1' boundaryOk postUpper 'I' none,
    subLit1 '1' preUpper postUpper 'I' none,
    subLit1 '5' boundaryOk postUpper 'S' none,
    subLit1 '5' preUpper boundaryOk 'S' none,
    subLit1 '8' boundaryOk postUpper 'B' none,
    subLit1 '8' preUpper boundaryOk 'B' none,
    subLit1 'l' boundaryOk postUpper 'I' none,
    subLit1 'l' preUpper boundaryOk 'I' none,
    subLit2 'v' 'v' boundaryOk noCond 'W' none,
    subLit2 'v' 'v' preUpper noCond 'W' none,
    subLit1 'v' preUpper boundaryOk 'Y' none ]

/-- The `CHAR_REPLACEMENTS` loop of `correct_common_mistakes`: each rule runs
on the current text and contributes one `confusionMsg` entry when it changes
the text. -/
def applyCharRules : List (List Char → List Char) → List Char × List String →
    List Char × List String
  | [], acc => acc
  | rule :: rules, (t, cs) =>
      applyCharRules rules (rule t, cs ++ if rule t ≠ t then [confusionMsg] else [])

/-- The dictionary returned by `correct_common_mistakes`. -/
structure CorrectionResult where
  original : List Char
  corrected : List Char
  changed : Bool
  corrections : List String
deriving DecidableEq

/-- Embedding of `correct_common_mistakes` from `smart_correction.py`:
stage 1 (`PATTERN_RM`, one correction entry per match), stages 2-9 (the eight
rm/rn/nn `re.sub` calls, never recording entries), stage 10
(`PATTERN_SHORT_WORDS`, one entry if it changed the text) and the fourteen
`CHAR_REPLACEMENTS` rules (one entry per rule that changed the text). -/
def correct_common_mistakes (text : List Char) : CorrectionResult :=
  { original := text
    corrected := (applyCharRules charReplacements
      (shortWordStage (rmRnNnStages (rmStage text).1), [])).1
    changed := text ≠ (applyCharRules charReplacements
      (shortWordStage (rmRnNnStages (rmStage text).1), [])).1
    corrections := (rmStage text).2 ++
      (if rmRnNnStages (rmStage text).1 ≠ shortWordStage (rmRnNnStages (rmStage text).1) then
        [shortWordsMsg] else []) ++
      (applyCharRules charReplacements
        (shortWordStage (rmRnNnStages (rmStage text).1), [])).2 }

/-- Ordered-dictionary assignment `d[k] = v` on the insertion-ordered
association list that models the Python dict `_text_cache`: an existing key
keeps its position and gets the new value; a new key is appended at the
end. -/
def dictAssign {α : Type} [DecidableEq α] (d : List (α × String)) (k : α) (v : String) :
    List (α × String) :=
  if d.any (fun e => decide (e.1 = k)) then
    d.map (fun e => if e.1 = k then (k, v) else e)
  else d ++ [(k, v)]

/-- Eviction check of `recognize_text`: after the assignment, if
`len(_text_cache) > 100` delete `next(iter(_text_cache))` — the
oldest-inserted key, the head of the insertion-ordered list. -/
def cacheEvict {α : Type} (d : List (α × String)) : List (α × String) :=
  if d.length > 100 then d.tail else d

/-- The cache-insertion step of `recognize_text` (`text_recognizer.py`,
lines 122-128): dictionary assignment followed by the eviction check. -/
def recognizePut {α : Type} [DecidableEq α] (d : List (α × String)) (k : α) (v : String) :
    List (α × String) :=
  cacheEvict (dictAssign d k v)

/-- Key membership `k in d` of the model dict. -/
def cacheHasKey {α : Type} [DecidableEq α] (d : List (α × String)) (k : α) : Bool :=
  d.any (fun e => decide (e.1 = k))

/-- The 101-distinct-keys scenario: keys `0`-`100` inserted in order into an
initially empty cache, each insertion through the `recognize_text` step. -/
def cacheScenario : List (Nat × String) :=
  (List.range 101).foldl (fun d k => recognizePut d k "text") []

/-- C8: `calculate_levenshtein_distance` is zero on equal strings, symmetric
in its two arguments, and against the empty string returns the other string's
length in both argument orders. -/
theorem levenshtein_self_symm_empty :
    (∀ s : List Char, calculate_levenshtein_distance s s = 0) ∧
    (∀ a b : List Char,
      calculate_levenshtein_distance a b = calculate_levenshtein_distance b a) ∧
    (∀ s : List Char, calculate_levenshtein_distance s [] = s.length ∧
      calculate_levenshtein_distance [] s = s.length) := by
  refine ⟨fun s => ?_, fun a b => ?_, fun s => ⟨?_, ?_⟩⟩
  · rw [calc_lev_eq, levd_self]
  · rw [calc_lev_eq, calc_lev_eq, levd_comm]
  · rw [calc_lev_eq, levd_nil_right]
  · rw [calc_lev_eq, levd_nil_left]

/-- C6: `calculate_cer` always lies in `[0, 1]`; on an empty reference it is
`0` against an empty candidate and `1` otherwise; on a non-empty reference it
is `min(1, distance / len(reference))`, hence never exceeds `1` however long
the candidate. -/
theorem cer_bounds_and_branches (gt pred : List Char) :
    (0 ≤ calculate_cer gt pred ∧ calculate_cer gt pred ≤ 1) ∧
    calculate_cer [] [] = 0 ∧
    (pred ≠ [] → calculate_cer [] pred = 1) ∧
    (gt ≠ [] → calculate_cer gt pred =
      min 1 ((calculate_levenshtein_distance gt pred : ℚ) / gt.length)) := by
  refine ⟨?_, by simp [calculate_cer], fun h => by simp [calculate_cer, h], fun h => ?_⟩
  · unfold calculate_cer
    by_cases hgt : gt = []
    · by_cases hp : pred = [] <;> simp [hgt, hp]
    · simp only [hgt, if_false]
      constructor
      · exact le_min (div_nonneg (Nat.cast_nonneg _) (Nat.cast_nonneg _)) zero_le_one
      · exact min_le_right _ _
  · simp [calculate_cer, h, min_comm]

/-- Witness for C6 at concrete inputs. -/
theorem cer_bounds_and_branches_witness :
    calculate_cer [] ("x".data) = 1 ∧
    calculate_cer ("ab".data) ("abcdef".data) =
      min 1 ((calculate_levenshtein_distance ("ab".data) ("abcdef".data) : ℚ) /
        ("ab".data.length)) :=
  ⟨(cer_bounds_and_branches [] "x".data).2.2.1 (by decide),
   (cer_bounds_and_branches "ab".data "abcdef".data).2.2.2 (by decide)⟩

/-- Number of positions at which two word lists agree, expressed by index:
the specification form of the `zip` comparison of
`calculate_word_accuracy`. -/
def posMatches (g p : List (List Char)) : Nat :=
  (List.range (min g.length p.length)).countP (fun i => decide (g[i]? = p[i]?))

theorem countP_zip_eq_posMatches :
    ∀ g p : List (List Char),
      (List.zip g p).countP (fun wp => decide (wp.1 = wp.2)) = posMatches g p := by
  intro g
  induction g with
  | nil => intro p; simp [posMatches]
  | cons a g ih =>
      intro p
      cases p with
      | nil => simp [posMatches]
      | cons b p =>
          rw [List.zip_cons_cons, List.countP_cons, ih p]
          simp only [posMatches, List.length_cons, Nat.succ_min_succ, List.range_succ_eq_map,
            List.countP_cons, List.countP_map]
          have h1 :
              ((fun i => decide ((a :: g)[i]? = (b :: p)[i]?)) ∘ Nat.succ) =
                fun i => decide (g[i]? = p[i]?) := by
            funext i
            simp only [Function.comp_apply, List.getElem?_cons_succ]
          rw [h1]
          by_cases hab : a = b <;>
            simp [hab, List.getElem?_cons_zero]

/-- C7: `calculate_word_accuracy` is the positional comparison — on an empty
normalized reference word list it is `100` or `0` by the empty-candidate
rule; otherwise it is the number of indices at which the normalized word
lists agree (`zip`-truncated, trailing words wrong), divided by the reference
word count and scaled to percent; the result always lies in `[0, 100]`. -/
theorem word_accuracy_positional (gt pred : List Char) :
    (pySplit (normalize_text gt) = [] →
      (pySplit (normalize_text pred) = [] → calculate_word_accuracy gt pred = 100) ∧
      (pySplit (normalize_text pred) ≠ [] → calculate_word_accuracy gt pred = 0)) ∧
    (pySplit (normalize_text gt) ≠ [] →
      calculate_word_accuracy gt pred =
        (posMatches (pySplit (normalize_text gt)) (pySplit (normalize_text pred)) : ℚ) /
          ((pySplit (normalize_text gt)).length) * 100) ∧
    0 ≤ calculate_word_accuracy gt pred ∧ calculate_word_accuracy gt pred ≤ 100 := by
  refine ⟨fun h => ⟨fun hp => by simp [calculate_word_accuracy, h, hp],
      fun hp => by simp [calculate_word_accuracy, h, hp]⟩, fun h => ?_, ?_⟩
  · rw [calculate_word_accuracy, if_neg h, countP_zip_eq_posMatches]
  · unfold calculate_word_accuracy
    by_cases h : pySplit (normalize_text gt) = []
    · by_cases hp : pySplit (normalize_text pred) = [] <;> simp [h, hp]
    · rw [if_neg h]
      have hm : 0 < ((pySplit (normalize_text gt)).length : ℚ) := by
        have := List.length_pos.mpr h
        exact_mod_cast this
      have hcount :
          (List.zip (pySplit (normalize_text gt)) (pySplit (normalize_text pred))).countP
              (fun wp => decide (wp.1 = wp.2)) ≤ (pySplit (normalize_text gt)).length := by
        calc (List.zip (pySplit (normalize_text gt))
                (pySplit (normalize_text pred))).countP (fun wp => decide (wp.1 = wp.2)) ≤
              (List.zip (pySplit (normalize_text gt)) (pySplit (normalize_text pred))).length :=
            List.countP_le_length _
          _ = min (pySplit (normalize_text gt)).length
                (pySplit (normalize_text pred)).length :=
            List.length_zip _ _
          _ ≤ (pySplit (normalize_text gt)).length := min_le_left _ _
      constructor
      · positivity
      · have hq : ((List.zip (pySplit (normalize_text gt))
              (pySplit (normalize_text pred))).countP (fun wp => decide (wp.1 = wp.2)) : ℚ) /
              ((pySplit (normalize_text gt)).length) ≤ 1 := by
          rw [div_le_one hm]
          exact_mod_cast hcount
        calc ((List.zip (pySplit (normalize_text gt))
                (pySplit (normalize_text pred))).countP (fun wp => decide (wp.1 = wp.2)) : ℚ) /
              ((pySplit (normalize_text gt)).length) * 100 ≤ 1 * 100 := by
              exact mul_le_mul_of_nonneg_right hq (by norm_num)
          _ = 100 := by norm_num

/-- Witness for C7 at concrete inputs. -/
theorem word_accuracy_positional_witness :
    calculate_word_accuracy ("one two three".data) ("one deux three four".data) =
      (posMatches (pySplit (normalize_text "one two three".data))
          (pySplit (normalize_text "one deux three four".data)) : ℚ) /
        ((pySplit (normalize_text "one two three".data)).length) * 100 ∧
    calculate_word_accuracy (" ".data) ("x".data) = 0 :=
  ⟨((word_accuracy_positional "one two three".data "one deux three four".data).2.1
      (by decide)),
   ((word_accuracy_positional " ".data "x".data).1 (by decide)).2 (by decide)⟩

set_option maxRecDepth 10000 in
/-- C5: the recognition-cache step keeps at most 100 entries whenever it
starts from at most 100; inserting a fresh key into a full cache drops
exactly the oldest-inserted entry (the head) and appends the new one
(first-in-first-out); and the concrete 101-distinct-keys scenario ends with
exactly 100 entries, the first key absent and the 101st present. -/
theorem cache_capacity_fifo :
    (∀ (α : Type) [DecidableEq α] (d : List (α × String)) (k : α) (v : String),
      d.length ≤ 100 → (recognizePut d k v).length ≤ 100) ∧
    (∀ (α : Type) [DecidableEq α] (d : List (α × String)) (k : α) (v : String),
      cacheHasKey d k = false → d.length = 100 →
      recognizePut d k v = d.tail ++ [(k, v)]) ∧
    (cacheScenario.length = 100 ∧ cacheHasKey cacheScenario 0 = false ∧
      cacheHasKey cacheScenario 100 = true) := by
  refine ⟨?_, ?_, by decide, by decide, by decide⟩
  · intro α _ d k v hlen
    have hassign : (dictAssign d k v).length ≤ d.length + 1 := by
      unfold dictAssign
      split
      · rw [List.length_map]; omega
      · rw [List.length_append, List.length_singleton]
    unfold recognizePut cacheEvict
    split
    · next h => rw [List.length_tail]; omega
    · next h => omega
  · intro α _ d k v hkey hlen
    unfold recognizePut cacheEvict dictAssign
    rw [cacheHasKey] at hkey
    rw [hkey]
    simp only [Bool.false_eq_true, if_false, List.length_append, List.length_singleton, hlen]
    rw [if_pos (by omega)]
    cases d with
    | nil => simp at hlen
    | cons e d => rfl

/-- Witness for C5 at concrete inputs. -/
theorem cache_capacity_fifo_witness :
    (recognizePut ([(("h", "t")) ]) "k" "v").length ≤ 100 ∧
    recognizePut ((List.range 100).map (fun i => (i, "v"))) 100 "w" =
      ((List.range 100).map (fun i => (i, "v"))).tail ++ [(100, "w")] :=
  ⟨cache_capacity_fifo.1 String [("h", "t")] "k" "v" (by decide),
   cache_capacity_fifo.2.1 Nat ((List.range 100).map (fun i => (i, "v"))) 100 "w"
     (by decide) (by decide)⟩

/-- Number of `CHAR_REPLACEMENTS` rules that change the text when applied in
order, each to the previous rule's output. -/
def countChanged : List (List Char → List Char) → List Char → Nat
  | [], _ => 0
  | rule :: rules, t => (if rule t ≠ t then 1 else 0) + countChanged rules (rule t)

theorem applyCharRules_len :
    ∀ (rules : List (List Char → List Char)) (t : List Char) (cs : List String),
      (applyCharRules rules (t, cs)).2.length = cs.length + countChanged rules t := by
  intro rules
  induction rules with
  | nil => intro t cs; simp [applyCharRules, countChanged]
  | cons rule rules ih =>
      intro t cs
      rw [applyCharRules, ih (rule t), countChanged]
      rw [List.length_append]
      split <;> simp <;> omega

/-- C2 (amended): the number of correction entries returned by
`correct_common_mistakes` is the number of `PATTERN_RM` matches (one entry
per match of stage 1), plus one entry if the short-word stage changed the
text, plus one entry per `CHAR_REPLACEMENTS` rule that changed the text; the
eight rm/rn/nn substitution stages (2-9) never contribute an entry, even
when they change the text. -/
theorem corrections_per_stage (t : List Char) :
    (correct_common_mistakes t).corrections.length =
      (rmScanGo t.length none t).2.length +
      ((if rmRnNnStages (rmStage t).1 ≠ shortWordStage (rmRnNnStages (rmStage t).1) then 1
        else 0) +
        countChanged charReplacements (shortWordStage (rmRnNnStages (rmStage t).1))) := by
  show ((rmStage t).2 ++ _ ++ _).length = _
  rw [List.length_append, List.length_append, applyCharRules_len]
  have h1 : (rmStage t).2.length = (rmScanGo t.length none t).2.length := by
    rw [rmStage]
    simp
  rw [h1]
  split <;> simp <;> omega

/-- Counterexample to C2 as stated: on input `"Arm"` the `PATTERN_RM_AFTER`
stage rewrites the text to `"AM"`, yet the returned corrections list is
empty — a rule stage that alters the text appends no description entry. -/
theorem corrections_missing_for_rm_after :
    (correct_common_mistakes "Arm".data).changed = true ∧
    (correct_common_mistakes "Arm".data).corrected = "AM".data ∧
    (correct_common_mistakes "Arm".data).corrections = [] := by
  exact ⟨by decide, by decide, by decide⟩

/-- C1 (amended): the input `"Connm"` contains no occurrence of `"rm"`, so
rule family 1 (`PATTERN_RM`) produces no match, and the whole pipeline
returns the text unchanged, with `changed = False` and no corrections. -/
theorem connm_unchanged :
    (rmScanGo "Connm".data.length none "Connm".data).2 = [] ∧
    correct_common_mistakes "Connm".data =
      { original := "Connm".data, corrected := "Connm".data, changed := false,
        corrections := [] } := by
  exact ⟨by decide, by decide⟩

/-- Counterexample to C1 as stated: `correct_common_mistakes "Connm"` returns
the text unchanged (no uppercase-suffix repair is produced). -/
theorem connm_not_repaired :
    (correct_common_mistakes "Connm".data).corrected = "Connm".data ∧
    (correct_common_mistakes "Connm".data).changed = false := by
  exact ⟨by decide, by decide⟩

theorem werRow_diag (g : List (List Char)) (i : Nat) (w : List Char) (hw : g[i]? = some w) :
    ∀ (ps : List (List Char)) (j0 : Nat), (∀ k, ps[k]? = g[j0 + k]?) →
      werRow w ps ((List.range' j0 (ps.length + 1)).map (Nat.dist i)) (Nat.dist (i + 1) j0) =
        (List.range' (j0 + 1) ps.length).map (Nat.dist (i + 1)) := by
  intro ps
  induction ps with
  | nil => intro j0 _; simp [werRow]
  | cons q ps ih =>
      intro j0 hk
      have hq : g[j0]? = some q := by
        have h := hk 0
        simpa using h.symm
      simp only [List.length_cons]
      rw [List.range'_succ, List.map_cons, List.range'_succ, List.map_cons]
      simp only [werRow]
      have hv : (if w = q then Nat.dist i j0
          else 1 + min (Nat.dist i (j0 + 1)) (min (Nat.dist (i + 1) j0) (Nat.dist i j0))) =
          Nat.dist (i + 1) (j0 + 1) := by
        by_cases hwq : w = q
        · rw [if_pos hwq]
          simp [Nat.dist]
        · rw [if_neg hwq]
          have hij : i ≠ j0 := by
            intro he
            rw [he, hq] at hw
            exact hwq (Option.some_inj.mp hw).symm
          simp only [Nat.dist]
          omega
      rw [hv]
      have hfold : Nat.dist i (j0 + 1) :: (List.range' (j0 + 1 + 1) ps.length).map (Nat.dist i) =
          (List.range' (j0 + 1) (ps.length + 1)).map (Nat.dist i) := by
        rw [List.range'_succ, List.map_cons]
      rw [hfold]
      have hknext : ∀ k, ps[k]? = g[j0 + 1 + k]? := by
        intro k
        have h := hk (k + 1)
        rw [List.getElem?_cons_succ] at h
        have harith : j0 + (k + 1) = j0 + 1 + k := by omega
        rw [harith] at h
        exact h
      rw [ih (j0 + 1) hknext, List.map_cons]

theorem werLoop_diag (g : List (List Char)) :
    ∀ (gs : List (List Char)) (i : Nat), i + gs.length = g.length →
      (∀ k, gs[k]? = g[i + k]?) →
      werLoop g gs i ((List.range' 0 (g.length + 1)).map (Nat.dist i)) =
        (List.range' 0 (g.length + 1)).map (Nat.dist g.length) := by
  intro gs
  induction gs with
  | nil =>
      intro i hlen _
      have : i = g.length := by simpa using hlen
      rw [werLoop, this]
  | cons w gs ih =>
      intro i hlen hk
      have hw : g[i]? = some w := by
        have h := hk 0
        simpa using h.symm
      rw [werLoop]
      have hrow : (i + 1) :: werRow w g ((List.range' 0 (g.length + 1)).map (Nat.dist i))
            (i + 1) =
          (List.range' 0 (g.length + 1)).map (Nat.dist (i + 1)) := by
        have h0 : (i + 1) = Nat.dist (i + 1) 0 := by simp [Nat.dist]
        have hcall := werRow_diag g i w hw g 0 (fun k => by simp)
        simp only [Nat.zero_add] at hcall
        calc (i + 1) :: werRow w g ((List.range' 0 (g.length + 1)).map (Nat.dist i)) (i + 1) =
            Nat.dist (i + 1) 0 ::
              werRow w g ((List.range' 0 (g.length + 1)).map (Nat.dist i))
                (Nat.dist (i + 1) 0) := by rw [← h0]
          _ = Nat.dist (i + 1) 0 :: (List.range' 1 g.length).map (Nat.dist (i + 1)) := by
              rw [hcall]
          _ = (List.range' 0 (g.length + 1)).map (Nat.dist (i + 1)) := by
              rw [List.range'_succ, List.map_cons]
      rw [hrow]
      have hknext : ∀ k, gs[k]? = g[i + 1 + k]? := by
        intro k
        have h := hk (k + 1)
        rw [List.getElem?_cons_succ] at h
        have harith : i + (k + 1) = i + 1 + k := by omega
        rw [harith] at h
        exact h
      exact ih (i + 1) (by simp at hlen ⊢; omega) hknext

theorem getLastD_map_range (f : Nat → Nat) (d : Nat) :
    ∀ (len s : Nat), 0 < len → ((List.range' s len).map f).getLastD d = f (s + len - 1) := by
  intro len
  induction len with
  | zero => intro s h; omega
  | succ l ih =>
      intro s _
      rw [List.range'_succ, List.map_cons]
      cases l with
      | zero => simp
      | succ m =>
          have hne : (List.range' (s + 1) (m + 1)).map f ≠ [] := by
            apply List.ne_nil_of_length_pos
            simp
          rw [getLastD_cons_of_ne_nil hne, ih (s + 1) (by omega)]
          congr 1
          omega

theorem wordDP_self (g : List (List Char)) : wordDP g g = 0 := by
  rw [wordDP]
  have h0 : List.range (g.length + 1) = (List.range' 0 (g.length + 1)).map (Nat.dist 0) := by
    rw [List.range_eq_range']
    have : ∀ l : List Nat, l.map (Nat.dist 0) = l := by
      intro l
      induction l with
      | nil => rfl
      | cons x xs ihx => rw [List.map_cons, ihx]; simp [Nat.dist]
    rw [this]
  rw [h0, werLoop_diag g g 0 (by simp) (fun k => by simp),
    getLastD_map_range _ _ _ _ (by omega)]
  simp [Nat.dist]

theorem calculate_wer_eq_words (gt pred : List Char)
    (h : pySplit (normalize_text gt) = pySplit (normalize_text pred)) :
    calculate_wer gt pred = 0 := by
  rw [calculate_wer]
  by_cases hg : pySplit (normalize_text gt) = []
  · rw [if_pos hg, if_pos (h ▸ hg)]
  · rw [if_neg hg, ← h, wordDP_self]
    simp

theorem countP_zip_self (g : List (List Char)) :
    (List.zip g g).countP (fun wp => decide (wp.1 = wp.2)) = g.length := by
  induction g with
  | nil => rfl
  | cons a g ih => rw [List.zip_cons_cons, List.countP_cons, ih]; simp

theorem calculate_word_accuracy_eq_words (gt pred : List Char)
    (h : pySplit (normalize_text gt) = pySplit (normalize_text pred)) :
    calculate_word_accuracy gt pred = 100 := by
  rw [calculate_word_accuracy]
  by_cases hg : pySplit (normalize_text gt) = []
  · rw [if_pos hg, if_pos (h ▸ hg)]
  · rw [if_neg hg, ← h, countP_zip_self]
    have hm : ((pySplit (normalize_text gt)).length : ℚ) ≠ 0 := by
      have := List.length_pos.mpr hg
      positivity
    rw [div_self hm, one_mul]

/-- C9: when two texts differ only in letter case (their lowered forms are
equal), word accuracy is `100` and word error rate is `0` exactly as for
identical texts, while the character error rate is strictly positive as soon
as the texts differ at all and the reference is non-empty — normalization is
applied before word comparison but never before character comparison. -/
theorem case_only_difference (gt pred : List Char)
    (hcase : gt.map pyLower = pred.map pyLower) :
    calculate_word_accuracy gt pred = 100 ∧ calculate_wer gt pred = 0 ∧
    (gt ≠ pred → gt ≠ [] → 0 < calculate_cer gt pred) := by
  have hnorm : normalize_text gt = normalize_text pred := by
    rw [normalize_text, normalize_text, hcase]
  have hwords : pySplit (normalize_text gt) = pySplit (normalize_text pred) := by rw [hnorm]
  refine ⟨calculate_word_accuracy_eq_words _ _ hwords, calculate_wer_eq_words _ _ hwords, ?_⟩
  intro hne hgt
  rw [calculate_cer, if_neg hgt]
  have hlev : calculate_levenshtein_distance gt pred ≠ 0 := by
    rw [calc_lev_eq]
    intro h0
    exact hne ((levd_eq_zero_iff gt pred).mp h0)
  have h1 : (0 : ℚ) < (calculate_levenshtein_distance gt pred : ℚ) / gt.length := by
    apply div_pos
    · exact_mod_cast Nat.pos_of_ne_zero hlev
    · exact_mod_cast List.length_pos.mpr hgt
  exact lt_min h1 one_pos

/-- Witness for C9 at the spec's example pair. -/
theorem case_only_difference_witness :
    calculate_word_accuracy "Hello World".data "hello world".data = 100 ∧
    calculate_wer "Hello World".data "hello world".data = 0 ∧
    0 < calculate_cer "Hello World".data "hello world".data := by
  have h := case_only_difference "Hello World".data "hello world".data (by decide)
  exact ⟨h.1, h.2.1, h.2.2 (by decide) (by decide)⟩

/-- C3 (amended): the loop of `compare_engines` attaches a fresh metrics
record to the copy of a result exactly when the success flag is true or
absent and the `text` key is present (even with empty text); results with
`success = false` or no `text` key pass through untouched. -/
theorem metrics_attachment (gt : List Char) (r : EngineResult) :
    (∀ t, r.text = some t → r.success.getD true = true →
      compareStep gt r = { r with accuracy_metrics := some (get_detailed_metrics gt t) }) ∧
    (r.success = some false → compareStep gt r = r) ∧
    (r.text = none → compareStep gt r = r) := by
  refine ⟨fun t ht hs => ?_, fun hs => ?_, fun ht => ?_⟩
  · simp [compareStep, ht, hs]
  · cases htext : r.text <;> simp [compareStep, htext, hs]
  · simp [compareStep, ht]

/-- Witness for C3 at concrete inputs. -/
theorem metrics_attachment_witness :
    compareStep "ab".data ⟨"e", some "xy".data, none, none, none⟩ =
      { engine := "e", text := some "xy".data, success := none, error := none,
        accuracy_metrics := some (get_detailed_metrics "ab".data "xy".data) } ∧
    compareStep "ab".data ⟨"e", some "xy".data, some false, none, none⟩ =
      ⟨"e", some "xy".data, some false, none, none⟩ :=
  ⟨(metrics_attachment "ab".data ⟨"e", some "xy".data, none, none, none⟩).1 "xy".data rfl rfl,
   (metrics_attachment "ab".data ⟨"e", some "xy".data, some false, none, none⟩).2.1 rfl⟩

/-- Counterexample to C3 as stated: a result with `success = True` and an
empty text string still gets a metrics record attached (`"text" in result`
only tests key presence, not non-emptiness). -/
theorem metrics_attached_to_empty_text :
    (⟨"e", some [], some true, none, none⟩ : EngineResult).text = some [] ∧
    (compare_engines "abc".data [⟨"e", some [], some true, none, none⟩]).map
        (fun r => r.accuracy_metrics.isSome) = [true] := by
  exact ⟨rfl, rfl⟩

/-- C10: a result that has a `text` key but no `success` key at all is
treated as successful — its copy gets a metrics record attached and appears
in the output of `compare_engines`. -/
theorem absent_success_treated_successful (gt : List Char) (rs : List EngineResult)
    (r : EngineResult) (t : List Char) (hr : r ∈ rs) (hs : r.success = none)
    (ht : r.text = some t) :
    compareStep gt r = { r with accuracy_metrics := some (get_detailed_metrics gt t) } ∧
    compareStep gt r ∈ compare_engines gt rs := by
  constructor
  · simp [compareStep, ht, hs]
  · rw [compare_engines]
    have hperm := List.perm_insertionSort (fun a b : EngineResult => sortKey b ≤ sortKey a)
      (rs.map (compareStep gt))
    exact hperm.mem_iff.mpr (List.mem_map_of_mem _ hr)

/-- Witness for C10 at concrete inputs. -/
theorem absent_success_treated_successful_witness :
    compareStep "ab".data ⟨"e", some "ab".data, none, none, none⟩ =
      { engine := "e", text := some "ab".data, success := none, error := none,
        accuracy_metrics := some (get_detailed_metrics "ab".data "ab".data) } ∧
    compareStep "ab".data ⟨"e", some "ab".data, none, none, none⟩ ∈
      compare_engines "ab".data [⟨"e", some "ab".data, none, none, none⟩] :=
  absent_success_treated_successful "ab".data [⟨"e", some "ab".data, none, none, none⟩]
    ⟨"e", some "ab".data, none, none, none⟩ "ab".data (by simp) rfl rfl

theorem filter_orderedInsert (q : ℚ) (x : EngineResult) :
    ∀ l : List EngineResult,
      (List.orderedInsert (fun a b => sortKey b ≤ sortKey a) x l).filter
          (fun r => decide (sortKey r = q)) =
        if sortKey x = q then x :: l.filter (fun r => decide (sortKey r = q))
        else l.filter (fun r => decide (sortKey r = q)) := by
  intro l
  induction l with
  | nil =>
      by_cases hx : sortKey x = q <;> simp [List.orderedInsert, hx]
  | cons b l ih =>
      rw [List.orderedInsert]
      by_cases hle : sortKey b ≤ sortKey x
      · rw [if_pos hle]
        by_cases hx : sortKey x = q <;> simp [List.filter_cons, hx]
      · rw [if_neg hle]
        rw [List.filter_cons, ih]
        by_cases hb : sortKey b = q
        · have hx : ¬sortKey x = q := by
            intro hxq
            exact hle (by rw [hxq, hb])
          simp [List.filter_cons, hb, hx]
        · by_cases hx : sortKey x = q <;> simp [List.filter_cons, hb, hx]

theorem filter_insertionSort (q : ℚ) :
    ∀ l : List EngineResult,
      (List.insertionSort (fun a b => sortKey b ≤ sortKey a) l).filter
          (fun r => decide (sortKey r = q)) = l.filter (fun r => decide (sortKey r = q)) := by
  intro l
  induction l with
  | nil => rfl
  | cons x l ih =>
      rw [List.insertionSort, filter_orderedInsert q x, ih, List.filter_cons]
      by_cases hx : sortKey x = q <;> simp [hx]

instance sortRelTotal : IsTotal EngineResult (fun a b => sortKey b ≤ sortKey a) :=
  ⟨fun a b => le_total (sortKey b) (sortKey a)⟩

instance sortRelTrans : IsTrans EngineResult (fun a b => sortKey b ≤ sortKey a) :=
  ⟨fun _ _ _ h1 h2 => le_trans h2 h1⟩

/-- C4 (amended): `compare_engines` returns a permutation of the processed
input (no result is dropped, every output element is a processed input
element), sorted descending by `character_accuracy` with results lacking a
metrics record keyed as `0`, and the sort is stable: for every key value, the
output elements with that key are exactly the processed input elements with
that key in their original order.  (A failed result therefore sinks below
every result of strictly positive accuracy, but keeps its input position
relative to successful results of equal key `0`.) -/
theorem ranking_sorted_stable (gt : List Char) (rs : List EngineResult) :
    (compare_engines gt rs).Perm (rs.map (compareStep gt)) ∧
    (compare_engines gt rs).length = rs.length ∧
    List.Sorted (fun a b => sortKey b ≤ sortKey a) (compare_engines gt rs) ∧
    (∀ q : ℚ, (compare_engines gt rs).filter (fun r => decide (sortKey r = q)) =
      (rs.map (compareStep gt)).filter (fun r => decide (sortKey r = q))) := by
  refine ⟨List.perm_insertionSort _ _, ?_, List.sorted_insertionSort _ _,
    fun q => filter_insertionSort q _⟩
  rw [compare_engines, (List.perm_insertionSort _ _).length_eq, List.length_map]

/-- Counterexample to C4 as stated: a failed result that precedes in the
input a successful result of character accuracy `0` stays in front of it in
the output — the tie at key `0` is kept in input order by the stable sort, so
a failed result is not always placed after all successful ones. -/
theorem failed_before_successful :
    compare_engines "a".data
        [⟨"f", none, some false, some "x", none⟩,
          ⟨"s", some "b".data, some true, none, none⟩] =
      [⟨"f", none, some false, some "x", none⟩,
        ⟨"s", some "b".data, some true, none,
          some (get_detailed_metrics "a".data "b".data)⟩] ∧
    (⟨"f", none, some false, some "x", none⟩ : EngineResult).success = some false ∧
    (⟨"s", some "b".data, some true, none,
      some (get_detailed_metrics "a".data "b".data)⟩ : EngineResult).success = some true := by
  refine ⟨?_, rfl, rfl⟩
  have hlev : calculate_levenshtein_distance "a".data "b".data = 1 := by decide
  have hcer : calculate_cer "a".data "b".data = 1 := by
    rw [calculate_cer, if_neg (by decide), hlev]
    norm_num
  have hacc : (get_detailed_metrics "a".data "b".data).character_accuracy = 0 := by
    show roundTo2 (calculate_accuracy "a".data "b".data) = 0
    rw [calculate_accuracy, if_neg (by decide), hcer, roundTo2]
    norm_num
  have hkey : sortKey ⟨"s", some "b".data, some true, none,
      some (get_detailed_metrics "a".data "b".data)⟩ = 0 := by
    show (get_detailed_metrics "a".data "b".data).character_accuracy = 0
    exact hacc
  have hstep1 : compareStep "a".data ⟨"f", none, some false, some "x", none⟩ =
      ⟨"f", none, some false, some "x", none⟩ := rfl
  have hstep2 : compareStep "a".data ⟨"s", some "b".data, some true, none, none⟩ =
      ⟨"s", some "b".data, some true, none,
        some (get_detailed_metrics "a".data "b".data)⟩ := rfl
  rw [compare_engines, List.map_cons, List.map_cons, List.map_nil, hstep1, hstep2]
  simp only [List.insertionSort, List.orderedInsert]
  rw [if_pos (by rw [hkey]; simp [sortKey])]

end HTR
